import Mathlib

set_option maxHeartbeats 1000000

/-! Shallow embedding of the chunking core of `src/processors/base_processor.py`:
`BaseProcessor.get_chunks` together with its nested helpers `add_chunk` and
`process_nodes`.  File bytes are modelled as `List Nat`, a decoded text as a
`List Nat` of Unicode code points, and Python's strict `bytes.decode("utf-8")`
as the total function `utf8Decode` returning `Option`. -/

/-- A tree-sitter syntax node as consumed by the builder: byte range,
(row, column) start and end positions, syntactic type tag and ordered
children.  The node's `text` is derived from the file bytes, below. -/
inductive Node where
  | mk (start_byte end_byte : Nat) (start_point end_point : Nat × Nat)
      (type : String) (children : List Node)

def Node.start_byte : Node → Nat
  | .mk s _ _ _ _ _ => s

def Node.end_byte : Node → Nat
  | .mk _ e _ _ _ _ => e

def Node.start_point : Node → Nat × Nat
  | .mk _ _ p _ _ _ => p

def Node.end_point : Node → Nat × Nat
  | .mk _ _ _ q _ _ => q

def Node.type : Node → String
  | .mk _ _ _ _ t _ => t

def Node.children : Node → List Node
  | .mk _ _ _ _ _ c => c

/-- A chunk record, flattening the Python dict
`{"content": ..., "metadata": {"id", "type", "start_point", "end_point",
"file_name"}}`. -/
structure Chunk where
  content : List Nat
  id : Nat
  type : String
  start_point : Nat × Nat
  end_point : Nat × Nat
  file_name : String
deriving DecidableEq, Repr

/-- One byte at a time, strict UTF-8 decoding as a state machine (the
standard Unicode well-formedness table).  The first argument is the pending
multi-byte sequence: `none` when the next byte must be a lead byte, and
`some (acc, need, lo, hi)` when `need` continuation bytes are still expected,
the next having to lie in `[lo, hi]` (the narrowed first-continuation ranges
rule out overlong encodings, surrogates and values above U+10FFFF, exactly
the inputs on which Python's `bytes.decode("utf-8")` raises). -/
def utf8Go : Option (Nat × Nat × Nat × Nat) → List Nat → Option (List Nat)
  | none, [] => some []
  | some _, [] => none
  | none, b :: bs =>
    if b < 128 then (utf8Go none bs).map (b :: ·)
    else if b < 194 then none
    else if b < 224 then utf8Go (some (b - 192, 1, 128, 191)) bs
    else if b = 224 then utf8Go (some (0, 2, 160, 191)) bs
    else if b = 237 then utf8Go (some (13, 2, 128, 159)) bs
    else if b < 240 then utf8Go (some (b - 224, 2, 128, 191)) bs
    else if b = 240 then utf8Go (some (0, 3, 144, 191)) bs
    else if b = 244 then utf8Go (some (4, 3, 128, 143)) bs
    else if b < 244 then utf8Go (some (b - 240, 3, 128, 191)) bs
    else none
  | some (acc, need, lo, hi), b :: bs =>
    if lo ≤ b ∧ b ≤ hi then
      if need = 1 then (utf8Go none bs).map ((acc * 64 + (b - 128)) :: ·)
      else utf8Go (some (acc * 64 + (b - 128), need - 1, 128, 191)) bs
    else none

/-- Strict UTF-8 decoding of a byte list into code points, modelling Python's
`bytes.decode("utf-8")`: `none` exactly when Python raises
`UnicodeDecodeError` (stray continuation bytes, truncated or overlong
sequences, surrogates, values above U+10FFFF). -/
def utf8Decode (l : List Nat) : Option (List Nat) := utf8Go none l

/-- `BaseProcessor.MIN_CHUNK_SIZE`. -/
def MIN_CHUNK_SIZE : Nat := 1024

/-- `BaseProcessor.MAX_CHUNK_SIZE`. -/
def MAX_CHUNK_SIZE : Nat := 2048

/-- A tree-sitter node's `text` attribute: the file bytes in
`[start_byte, end_byte)` (Python byte-slicing clamps out-of-range bounds). -/
def Node.text (src : List Nat) (n : Node) : List Nat :=
  (src.take n.end_byte).drop n.start_byte

/-- `len(node.text.decode("utf-8"))`, or `none` on `UnicodeDecodeError`. -/
def decodeLen (src : List Nat) (n : Node) : Option Nat :=
  (utf8Decode (n.text src)).map List.length

/-- The nested `add_chunk` helper: appends one chunk whose content is
`source_code[start_byte:end_byte]` (a slice of the decoded string) and whose
id is the current length of the output list. -/
def add_chunk (sourceCode : List Nat) (fileName : String)
    (startByte endByte : Nat) (startPoint endPoint : Nat × Nat)
    (chunkType : String) (chunks : List Chunk) : List Chunk :=
  chunks ++ [⟨(sourceCode.take endByte).drop startByte, chunks.length, chunkType,
    startPoint, endPoint, fileName⟩]

/-- The merge-branch emission `if current_chunk_nodes: add_chunk(start_byte,
end_byte, start_point, end_point, "mix")`: one "mix" chunk spanning from the
first accumulated node's start to the last accumulated node's end, emitted
only when the accumulator is non-empty. -/
def emitMix (sourceCode : List Nat) (fileName : String) (acc : List Node)
    (chunks : List Chunk) : List Chunk :=
  match acc.head?, acc.getLast? with
  | some a, some b =>
    add_chunk sourceCode fileName a.start_byte b.end_byte a.start_point b.end_point
      "mix" chunks
  | _, _ => chunks

/-- The inner `while current_chunk_size < MIN_CHUNK_SIZE and i < len(nodes)`
pull loop of `process_nodes`: keeps appending following siblings to the
accumulator (skipping ones whose text fails to decode) until the running size
reaches `MIN_CHUNK_SIZE` or the list ends.  Returns the accumulator, its
size, and the unconsumed remainder of the sibling list. -/
def pullLoop (src : List Nat) : List Node → Nat → List Node → List Node × Nat × List Node
  | acc, size, [] => (acc, size, [])
  | acc, size, n :: rest =>
    if size < MIN_CHUNK_SIZE then
      match decodeLen src n with
      | none => pullLoop src acc size rest
      | some s => pullLoop src (acc ++ [n]) (size + s) rest
    else (acc, size, n :: rest)

mutual

/-- Number of nodes in a tree, used as a termination measure. -/
def Node.weight : Node → Nat
  | .mk _ _ _ _ _ c => 1 + weightList c

/-- Total number of nodes in a forest, used as a termination measure. -/
def weightList : List Node → Nat
  | [] => 0
  | n :: ns => n.weight + weightList ns

end

/-- The nested `process_nodes` helper: one outer-loop state is the pending
accumulator (`cur`, `sz` — both reset to empty after every merge, and left
untouched by the other branches), the remaining sibling list, and the chunks
emitted so far.  A node that fails to decode is skipped; a node keeping the
accumulator under `MIN_CHUNK_SIZE` starts a merge (inner pull loop, then one
"mix" chunk over the accumulated span, guarded by the accumulator being
non-empty); an oversized node with children is replaced by recursing into its
children; otherwise the node is emitted standalone under its own type tag. -/
def process_nodes (src sourceCode : List Nat) (fileName : String) :
    List Node → Nat → List Node → List Chunk → List Chunk
  | _, _, [], chunks => chunks
  | cur, sz, node :: rest, chunks =>
    match decodeLen src node with
    | none => process_nodes src sourceCode fileName cur sz rest chunks
    | some nodeSize =>
      if sz + nodeSize < MIN_CHUNK_SIZE then
        process_nodes src sourceCode fileName [] 0
          (pullLoop src (cur ++ [node]) (sz + nodeSize) rest).2.2
          (emitMix sourceCode fileName (pullLoop src (cur ++ [node]) (sz + nodeSize) rest).1
            chunks)
      else if MAX_CHUNK_SIZE < nodeSize ∧ 0 < node.children.length then
        process_nodes src sourceCode fileName cur sz rest
          (process_nodes src sourceCode fileName [] 0 node.children chunks)
      else
        process_nodes src sourceCode fileName cur sz rest
          (add_chunk sourceCode fileName node.start_byte node.end_byte
            node.start_point node.end_point node.type chunks)
termination_by cur sz ns chunks => weightList ns
decreasing_by
  · have hw : Node.weight node = 1 + weightList node.children := by
      cases node
      rfl
    simp only [weightList]
    omega
  · have hkey : ∀ (r acc : List Node) (s : Nat),
        weightList (pullLoop src acc s r).2.2 ≤ weightList r := by
      intro r
      induction r with
      | nil =>
        intro acc s
        simp [pullLoop]
      | cons x xs ih =>
        intro acc s
        by_cases hs : s < MIN_CHUNK_SIZE
        · cases hdl : decodeLen src x with
          | none =>
            have h1 : pullLoop src acc s (x :: xs) = pullLoop src acc s xs := by
              simp [pullLoop, hs, hdl]
            rw [h1]
            have h2 : weightList (x :: xs) = Node.weight x + weightList xs := rfl
            have h3 := ih acc s
            omega
          | some v =>
            have h1 : pullLoop src acc s (x :: xs) = pullLoop src (acc ++ [x]) (s + v) xs := by
              simp [pullLoop, hs, hdl]
            rw [h1]
            have h2 : weightList (x :: xs) = Node.weight x + weightList xs := rfl
            have h3 := ih (acc ++ [x]) (s + v)
            omega
        · simp [pullLoop, hs]
    have h4 := hkey rest (cur ++ [node]) (sz + nodeSize)
    have hw : Node.weight node = 1 + weightList node.children := by
      cases node
      rfl
    have h5 : weightList (node :: rest) = Node.weight node + weightList rest := rfl
    omega
  · have hw : Node.weight node = 1 + weightList node.children := by
      cases node
      rfl
    have h5 : weightList (node :: rest) = Node.weight node + weightList rest := rfl
    omega
  · have hw : Node.weight node = 1 + weightList node.children := by
      cases node
      rfl
    have h5 : weightList (node :: rest) = Node.weight node + weightList rest := rfl
    omega
  · have hw : Node.weight node = 1 + weightList node.children := by
      cases node
      rfl
    have h5 : weightList (node :: rest) = Node.weight node + weightList rest := rfl
    omega

/-- `BaseProcessor.get_chunks`: decode the root's full text (returning an
empty chunk list on failure) and process the root's direct children. -/
def get_chunks (src : List Nat) (root : Node) (fileName : String) : List Chunk :=
  match utf8Decode (Node.text src root) with
  | none => []
  | some sourceCode => process_nodes src sourceCode fileName [] 0 root.children []

/-- Fuel-indexed variant of `process_nodes`, identical branch for branch but
returning `none` when the fuel runs out; used to state that the recursion
terminates normally on every input. -/
def process_nodesF (src sourceCode : List Nat) (fileName : String) :
    Nat → List Node → Nat → List Node → List Chunk → Option (List Chunk)
  | 0, _, _, _, _ => none
  | _ + 1, _, _, [], chunks => some chunks
  | fuel + 1, cur, sz, node :: rest, chunks =>
    match decodeLen src node with
    | none => process_nodesF src sourceCode fileName fuel cur sz rest chunks
    | some nodeSize =>
      if sz + nodeSize < MIN_CHUNK_SIZE then
        process_nodesF src sourceCode fileName fuel [] 0
          (pullLoop src (cur ++ [node]) (sz + nodeSize) rest).2.2
          (emitMix sourceCode fileName (pullLoop src (cur ++ [node]) (sz + nodeSize) rest).1
            chunks)
      else if MAX_CHUNK_SIZE < nodeSize ∧ 0 < node.children.length then
        match process_nodesF src sourceCode fileName fuel [] 0 node.children chunks with
        | none => none
        | some chunks' => process_nodesF src sourceCode fileName fuel cur sz rest chunks'
      else
        process_nodesF src sourceCode fileName fuel cur sz rest
          (add_chunk sourceCode fileName node.start_byte node.end_byte
            node.start_point node.end_point node.type chunks)

/-- Fuel-indexed variant of `get_chunks` built on `process_nodesF`. -/
def get_chunksF (fuel : Nat) (src : List Nat) (root : Node) (fileName : String) :
    Option (List Chunk) :=
  match utf8Decode (Node.text src root) with
  | none => some []
  | some sourceCode => process_nodesF src sourceCode fileName fuel [] 0 root.children []

/-- Character size of a group of nodes: the sum of the decoded lengths of its
members (0 for a member that fails to decode). -/
def groupSize (src : List Nat) (g : List Node) : Nat :=
  (g.map (fun n => (decodeLen src n).getD 0)).sum

/-- The consecutive groups of siblings that the merge accumulator of
`process_nodes` collects when every sibling is small (below
`MIN_CHUNK_SIZE`): each group starts from one head node and pulls following
siblings via `pullLoop` until the running size reaches `MIN_CHUNK_SIZE` or
the list ends. -/
def greedyGroups (src : List Nat) : List Node → List (List Node)
  | [] => []
  | n :: rest =>
    match decodeLen src n with
    | none => greedyGroups src rest
    | some s =>
      (pullLoop src [n] s rest).1 :: greedyGroups src (pullLoop src [n] s rest).2.2
termination_by ns => ns.length
decreasing_by
  · simp
  · have hkey : ∀ (r acc : List Node) (s : Nat), (pullLoop src acc s r).2.2.length ≤ r.length := by
      intro r
      induction r with
      | nil =>
        intro acc s
        simp [pullLoop]
      | cons x xs ih =>
        intro acc s
        by_cases hs : s < MIN_CHUNK_SIZE
        · cases hdl : decodeLen src x with
          | none =>
            have h1 : pullLoop src acc s (x :: xs) = pullLoop src acc s xs := by
              simp [pullLoop, hs, hdl]
            rw [h1]
            have h3 := ih acc s
            simp only [List.length_cons]
            omega
          | some v =>
            have h1 : pullLoop src acc s (x :: xs) = pullLoop src (acc ++ [x]) (s + v) xs := by
              simp [pullLoop, hs, hdl]
            rw [h1]
            have h3 := ih (acc ++ [x]) (s + v)
            simp only [List.length_cons]
            omega
        · simp [pullLoop, hs]
    have h4 := hkey ns [n] s
    simp only [List.length_cons]
    omega

/-- A grouping of a sibling list into non-empty consecutive groups in which
every group but the last has character size at least `MIN_CHUNK_SIZE` — the
bound the spec's merge-threshold property quantifies over. -/
def okGrouping (src : List Nat) (groups : List (List Node)) (ns : List Node) : Prop :=
  groups.flatten = ns ∧ (∀ g ∈ groups, 0 < g.length) ∧
    ∀ g ∈ groups.dropLast, MIN_CHUNK_SIZE ≤ groupSize src g

/-! Concrete inputs used by the claim-level counterexamples and witnesses.
`mkLeaf` builds a childless node whose (row, column) positions encode the
byte offsets on row 0. -/

/-- A childless node spanning bytes `[s, e)` with positions on row 0. -/
def mkLeaf (s e : Nat) (t : String) : Node := .mk s e (0, s) (0, e) t []

/-- 3600 ASCII bytes (letter `A`). -/
def src1 : List Nat := List.replicate 3600 65

/-- The root of the spec's end-to-end example: children of character lengths
300, 300 and 3000, the third child having two leaf children of length 1500
each. -/
def rootC1 : Node :=
  .mk 0 3600 (0, 0) (0, 3600) "module"
    [mkLeaf 0 300 "t1", mkLeaf 300 600 "t2",
      Node.mk 600 3600 (0, 600) (0, 3600) "t3" [mkLeaf 600 2100 "c1", mkLeaf 2100 3600 "c2"]]

/-- A 10-byte file starting with the two-byte character U+00E9 followed by
`abcdefgh`. -/
def srcC2 : List Nat := [195, 169, 97, 98, 99, 100, 101, 102, 103, 104]

/-- Root over `srcC2` with two small contiguous children spanning bytes
`[2, 6)` (text `abcd`) and `[6, 8)` (text `ef`); every node decodes. -/
def rootC2 : Node := .mk 0 10 (0, 0) (0, 10) "module" [mkLeaf 2 6 "a", mkLeaf 6 8 "b"]

/-- The 4-byte file `a`, U+00E9 (two bytes), `b`. -/
def srcC5 : List Nat := [97, 195, 169, 98]

/-- Root over `srcC5` with three children: byte `[0, 1)` (text `a`, decodes),
byte `[1, 2)` (the lone lead byte 0xC3, fails to decode), and byte `[3, 4)`
(text `b`, decodes). -/
def rootC5 : Node :=
  .mk 0 4 (0, 0) (0, 4) "module" [mkLeaf 0 1 "a", mkLeaf 1 2 "bad", mkLeaf 3 4 "c"]

/-- 2050 ASCII bytes (letter `b`). -/
def srcC3 : List Nat := List.replicate 2050 98

/-- Root over `srcC3`: a 1-byte leaf followed by a 2049-character node (above
`MAX_CHUNK_SIZE`) that has two leaf children. -/
def rootC3 : Node :=
  .mk 0 2050 (0, 0) (0, 2050) "module"
    [mkLeaf 0 1 "s",
      Node.mk 1 2050 (0, 1) (0, 2050) "big" [mkLeaf 1 1025 "c1", mkLeaf 1025 2050 "c2"]]

/-- Root over `srcC3`: a 1-byte leaf followed by a 2049-character leaf (above
`MAX_CHUNK_SIZE`, no children). -/
def rootC8 : Node := .mk 0 2050 (0, 0) (0, 2050) "module" [mkLeaf 0 1 "s", mkLeaf 1 2050 "big"]

/-- 3069 ASCII bytes (letter `c`). -/
def srcC4 : List Nat := List.replicate 3069 99

/-- The first child of `rootC4` (1023 characters). -/
def nC4a : Node := mkLeaf 0 1023 "a"

/-- The second child of `rootC4` (1023 characters). -/
def nC4b : Node := mkLeaf 1023 2046 "b"

/-- The third child of `rootC4` (1023 characters). -/
def nC4c : Node := mkLeaf 2046 3069 "c"

/-- Root over `srcC4` with three children of 1023 characters each, all below
`MIN_CHUNK_SIZE`. -/
def rootC4 : Node := .mk 0 3069 (0, 0) (0, 3069) "module" [nC4a, nC4b, nC4c]

/-- A root with a single 2-character child, used by witnesses. -/
def rootC10 : Node := .mk 0 2 (0, 0) (0, 2) "module" [mkLeaf 0 2 "x"]

/-- 2049 ASCII bytes (letter `b`), used by witnesses. -/
def srcW : List Nat := List.replicate 2049 98

/-- A 2049-character node with two leaf children, reached with an empty
accumulator, used by witnesses. -/
def bigW3 : Node :=
  Node.mk 0 2049 (0, 0) (0, 2049) "big" [mkLeaf 0 1025 "c1", mkLeaf 1025 2049 "c2"]

/-- A 2049-character childless node, reached with an empty accumulator, used
by witnesses. -/
def bigW8 : Node := mkLeaf 0 2049 "big"

/-! Helper lemmas about `pullLoop` and unfolding equations for
`process_nodes`. -/

theorem pullLoop_nil (src : List Nat) (acc : List Node) (sz : Nat) :
    pullLoop src acc sz [] = (acc, sz, []) := rfl

theorem pullLoop_stop (src : List Nat) (acc : List Node) (sz : Nat) (n : Node)
    (rest : List Node) (h : ¬ sz < MIN_CHUNK_SIZE) :
    pullLoop src acc sz (n :: rest) = (acc, sz, n :: rest) := by
  simp [pullLoop, h]

theorem pullLoop_skip (src : List Nat) (acc : List Node) (sz : Nat) (n : Node)
    (rest : List Node) (hlt : sz < MIN_CHUNK_SIZE) (h : decodeLen src n = none) :
    pullLoop src acc sz (n :: rest) = pullLoop src acc sz rest := by
  simp [pullLoop, hlt, h]

theorem pullLoop_cons (src : List Nat) (acc : List Node) (sz : Nat) (n : Node)
    (rest : List Node) (s : Nat) (hlt : sz < MIN_CHUNK_SIZE) (h : decodeLen src n = some s) :
    pullLoop src acc sz (n :: rest) = pullLoop src (acc ++ [n]) (sz + s) rest := by
  simp [pullLoop, hlt, h]

theorem pullLoop_append_exhausted (src : List Nat) (xs : List Node) :
    ∀ (acc : List Node) (sz : Nat) (ys a : List Node) (s : Nat),
      pullLoop src acc sz xs = (a, s, []) →
      pullLoop src acc sz (xs ++ ys) = pullLoop src a s ys := by
  induction xs with
  | nil =>
    intro acc sz ys a s h
    rw [pullLoop_nil] at h
    cases h
    rfl
  | cons x xs ih =>
    intro acc sz ys a s h
    by_cases hs : sz < MIN_CHUNK_SIZE
    · cases hdl : decodeLen src x with
      | none =>
        rw [pullLoop_skip src acc sz x xs hs hdl] at h
        rw [List.cons_append, pullLoop_skip src acc sz x (xs ++ ys) hs hdl]
        exact ih acc sz ys a s h
      | some v =>
        rw [pullLoop_cons src acc sz x xs v hs hdl] at h
        rw [List.cons_append, pullLoop_cons src acc sz x (xs ++ ys) v hs hdl]
        exact ih (acc ++ [x]) (sz + v) ys a s h
    · rw [pullLoop_stop src acc sz x xs hs] at h
      cases h

theorem pullLoop_append_stopped (src : List Nat) (xs : List Node) :
    ∀ (acc : List Node) (sz : Nat) (ys a : List Node) (s : Nat) (r : List Node),
      pullLoop src acc sz xs = (a, s, r) → r ≠ [] →
      pullLoop src acc sz (xs ++ ys) = (a, s, r ++ ys) := by
  induction xs with
  | nil =>
    intro acc sz ys a s r h hr
    rw [pullLoop_nil] at h
    cases h
    exact absurd rfl hr
  | cons x xs ih =>
    intro acc sz ys a s r h hr
    by_cases hs : sz < MIN_CHUNK_SIZE
    · cases hdl : decodeLen src x with
      | none =>
        rw [pullLoop_skip src acc sz x xs hs hdl] at h
        rw [List.cons_append, pullLoop_skip src acc sz x (xs ++ ys) hs hdl]
        exact ih acc sz ys a s r h hr
      | some v =>
        rw [pullLoop_cons src acc sz x xs v hs hdl] at h
        rw [List.cons_append, pullLoop_cons src acc sz x (xs ++ ys) v hs hdl]
        exact ih (acc ++ [x]) (sz + v) ys a s r h hr
    · rw [pullLoop_stop src acc sz x xs hs] at h
      cases h
      rw [List.cons_append, pullLoop_stop src acc sz x (xs ++ ys) hs]

theorem pullLoop_acc_prefix (src : List Nat) (r : List Node) :
    ∀ (acc : List Node) (sz : Nat), ∃ t, (pullLoop src acc sz r).1 = acc ++ t := by
  induction r with
  | nil =>
    intro acc sz
    exact ⟨[], by simp [pullLoop_nil]⟩
  | cons x xs ih =>
    intro acc sz
    by_cases hs : sz < MIN_CHUNK_SIZE
    · cases hdl : decodeLen src x with
      | none =>
        rw [pullLoop_skip src acc sz x xs hs hdl]
        exact ih acc sz
      | some v =>
        rw [pullLoop_cons src acc sz x xs v hs hdl]
        obtain ⟨t, ht⟩ := ih (acc ++ [x]) (sz + v)
        exact ⟨x :: t, by simp [ht]⟩
    · rw [pullLoop_stop src acc sz x xs hs]
      exact ⟨[], by simp⟩

theorem pullLoop_rest_suffix (src : List Nat) (r : List Node) :
    ∀ (acc : List Node) (sz : Nat), ∃ t, r = t ++ (pullLoop src acc sz r).2.2 := by
  induction r with
  | nil =>
    intro acc sz
    exact ⟨[], by simp [pullLoop_nil]⟩
  | cons x xs ih =>
    intro acc sz
    by_cases hs : sz < MIN_CHUNK_SIZE
    · cases hdl : decodeLen src x with
      | none =>
        rw [pullLoop_skip src acc sz x xs hs hdl]
        obtain ⟨t, ht⟩ := ih acc sz
        exact ⟨x :: t, by simp [← ht]⟩
      | some v =>
        rw [pullLoop_cons src acc sz x xs v hs hdl]
        obtain ⟨t, ht⟩ := ih (acc ++ [x]) (sz + v)
        exact ⟨x :: t, by simp [← ht]⟩
    · rw [pullLoop_stop src acc sz x xs hs]
      exact ⟨[], by simp⟩

theorem pullLoop_weightList (src : List Nat) (r : List Node) (acc : List Node) (sz : Nat) :
    weightList (pullLoop src acc sz r).2.2 ≤ weightList r := by
  obtain ⟨t, ht⟩ := pullLoop_rest_suffix src r acc sz
  conv_rhs => rw [ht]
  have : ∀ (a b : List Node), weightList (a ++ b) = weightList a + weightList b := by
    intro a
    induction a with
    | nil => intro b; simp [weightList]
    | cons x xs ih =>
      intro b
      show Node.weight x + weightList (xs ++ b) = Node.weight x + weightList xs + weightList b
      rw [ih]
      omega
  rw [this]
  omega

theorem weightList_append (a b : List Node) :
    weightList (a ++ b) = weightList a + weightList b := by
  induction a with
  | nil => simp [weightList]
  | cons x xs ih =>
    show Node.weight x + weightList (xs ++ b) = Node.weight x + weightList xs + weightList b
    rw [ih]
    omega

theorem process_nodes_nil (src sc : List Nat) (f : String) (cur : List Node) (sz : Nat)
    (chunks : List Chunk) : process_nodes src sc f cur sz [] chunks = chunks := by
  rw [process_nodes]

theorem process_nodes_skip (src sc : List Nat) (f : String) (cur : List Node) (sz : Nat)
    (node : Node) (rest : List Node) (chunks : List Chunk)
    (h : decodeLen src node = none) :
    process_nodes src sc f cur sz (node :: rest) chunks =
      process_nodes src sc f cur sz rest chunks := by
  rw [process_nodes, h]

theorem process_nodes_merge (src sc : List Nat) (f : String) (cur : List Node) (sz : Nat)
    (node : Node) (rest : List Node) (chunks : List Chunk) (s : Nat)
    (h : decodeLen src node = some s) (hlt : sz + s < MIN_CHUNK_SIZE) :
    process_nodes src sc f cur sz (node :: rest) chunks =
      process_nodes src sc f [] 0 (pullLoop src (cur ++ [node]) (sz + s) rest).2.2
        (emitMix sc f (pullLoop src (cur ++ [node]) (sz + s) rest).1 chunks) := by
  rw [process_nodes, h]
  simp only [hlt, if_pos]

theorem process_nodes_split (src sc : List Nat) (f : String) (cur : List Node) (sz : Nat)
    (node : Node) (rest : List Node) (chunks : List Chunk) (s : Nat)
    (h : decodeLen src node = some s) (hge : ¬ sz + s < MIN_CHUNK_SIZE)
    (hbig : MAX_CHUNK_SIZE < s) (hch : 0 < node.children.length) :
    process_nodes src sc f cur sz (node :: rest) chunks =
      process_nodes src sc f cur sz rest
        (process_nodes src sc f [] 0 node.children chunks) := by
  rw [process_nodes, h]
  simp only [hge, if_neg, not_false_iff]
  rw [if_pos ⟨hbig, hch⟩]

theorem process_nodes_standalone (src sc : List Nat) (f : String) (cur : List Node) (sz : Nat)
    (node : Node) (rest : List Node) (chunks : List Chunk) (s : Nat)
    (h : decodeLen src node = some s) (hge : ¬ sz + s < MIN_CHUNK_SIZE)
    (hns : ¬ (MAX_CHUNK_SIZE < s ∧ 0 < node.children.length)) :
    process_nodes src sc f cur sz (node :: rest) chunks =
      process_nodes src sc f cur sz rest
        (add_chunk sc f node.start_byte node.end_byte node.start_point node.end_point
          node.type chunks) := by
  rw [process_nodes, h]
  simp only [hge, if_neg, not_false_iff]
  rw [if_neg hns]

/-! ASCII and replicate evaluation helpers. -/

theorem utf8Decode_ascii : ∀ l : List Nat, (∀ b ∈ l, b < 128) → utf8Decode l = some l := by
  intro l
  induction l with
  | nil => intro _; rfl
  | cons b bs ih =>
    intro h
    have hb : b < 128 := h b (by simp)
    have hbs := ih (fun x hx => h x (by simp [hx]))
    show utf8Go none (b :: bs) = some (b :: bs)
    rw [utf8Go, if_pos hb]
    show (utf8Decode bs).map (b :: ·) = _
    rw [hbs]
    rfl

theorem text_replicate (N v : Nat) (n : Node) :
    Node.text (List.replicate N v) n = List.replicate (min n.end_byte N - n.start_byte) v := by
  unfold Node.text
  rw [List.take_replicate, List.drop_replicate]

theorem decodeLen_replicate (N v : Nat) (hv : v < 128) (n : Node) :
    decodeLen (List.replicate N v) n = some (min n.end_byte N - n.start_byte) := by
  unfold decodeLen
  rw [text_replicate, utf8Decode_ascii _ (fun b hb => by
    rw [List.eq_of_mem_replicate hb]; exact hv)]
  simp

theorem utf8Decode_replicate (N v : Nat) (hv : v < 128) :
    utf8Decode (List.replicate N v) = some (List.replicate N v) :=
  utf8Decode_ascii _ (fun b hb => by rw [List.eq_of_mem_replicate hb]; exact hv)

/-- Evaluation of `process_nodes` on a sibling pair whose first member is
small: the second member is pulled into the accumulator no matter its size,
and one "mix" chunk over both spans is emitted. -/
theorem process_pair_merge (src sc : List Nat) (f : String) (a b : Node) (sa sb : Nat)
    (ha : decodeLen src a = some sa) (hlt : sa < MIN_CHUNK_SIZE)
    (hb : decodeLen src b = some sb) :
    process_nodes src sc f [] 0 [a, b] [] =
      [⟨(sc.take b.end_byte).drop a.start_byte, 0, "mix", a.start_point, b.end_point, f⟩] := by
  rw [process_nodes_merge src sc f [] 0 a [b] [] sa ha (by omega)]
  rw [pullLoop_cons src ([] ++ [a]) (0 + sa) b [] sb (by omega) hb]
  rw [pullLoop_nil]
  show process_nodes src sc f [] 0 [] (emitMix sc f ([] ++ [a] ++ [b]) []) = _
  rw [process_nodes_nil]
  rfl

/-- Evaluation of `process_nodes` on a sibling triple whose members keep the
accumulator strictly under `MIN_CHUNK_SIZE` until the third is pulled: all
three are merged into one "mix" chunk. -/
theorem process_triple_merge (src sc : List Nat) (f : String) (a b c : Node)
    (sa sb sc3 : Nat) (ha : decodeLen src a = some sa) (hlt : sa < MIN_CHUNK_SIZE)
    (hb : decodeLen src b = some sb) (hlt2 : sa + sb < MIN_CHUNK_SIZE)
    (hc : decodeLen src c = some sc3) :
    process_nodes src sc f [] 0 [a, b, c] [] =
      [⟨(sc.take c.end_byte).drop a.start_byte, 0, "mix", a.start_point, c.end_point, f⟩] := by
  rw [process_nodes_merge src sc f [] 0 a [b, c] [] sa ha (by omega)]
  rw [pullLoop_cons src ([] ++ [a]) (0 + sa) b [c] sb (by omega) hb]
  rw [pullLoop_cons src ([] ++ [a] ++ [b]) (0 + sa + sb) c [] sc3 (by omega) hc]
  rw [pullLoop_nil]
  show process_nodes src sc f [] 0 [] (emitMix sc f ([] ++ [a] ++ [b] ++ [c]) []) = _
  rw [process_nodes_nil]
  rfl

/-! Claim-level theorems. -/

/-- C7 (confirmed): if the root node's full source text fails to decode as
UTF-8, `get_chunks` aborts before any chunking and returns the empty chunk
sequence. -/
theorem C7_root_decode_failure_empty (src : List Nat) (root : Node) (f : String)
    (h : utf8Decode (Node.text src root) = none) :
    get_chunks src root f = [] := by
  unfold get_chunks
  rw [h]

/-- Witness for C7 at the one-byte file `[255]`, which is not valid UTF-8. -/
theorem C7_root_decode_failure_empty_witness :
    utf8Decode (Node.text [255] (mkLeaf 0 1 "module")) = none ∧
      get_chunks [255] (mkLeaf 0 1 "module") "f" = [] :=
  ⟨by decide, C7_root_decode_failure_empty [255] (mkLeaf 0 1 "module") "f" (by decide)⟩

/-- C10 (confirmed): a sibling list of exactly one decodable node below
`MIN_CHUNK_SIZE` yields exactly one chunk, of type "mix" (not the node's own
type tag). -/
theorem C10_single_small_node_mix (src sc : List Nat) (f : String) (root n : Node) (s : Nat)
    (hch : root.children = [n]) (hroot : utf8Decode (Node.text src root) = some sc)
    (hn : decodeLen src n = some s) (hs : s < MIN_CHUNK_SIZE) :
    get_chunks src root f =
      [⟨(sc.take n.end_byte).drop n.start_byte, 0, "mix", n.start_point, n.end_point, f⟩] := by
  unfold get_chunks
  rw [hroot, hch]
  show process_nodes src sc f [] 0 [n] [] = _
  rw [process_nodes_merge src sc f [] 0 n [] [] s hn (by omega)]
  rw [pullLoop_nil]
  show process_nodes src sc f [] 0 [] (emitMix sc f ([] ++ [n]) []) = _
  rw [process_nodes_nil]
  rfl

/-- Witness for C10 at the two-byte ASCII file `AB` with a single child
spanning the whole file: one chunk of type "mix". -/
theorem C10_single_small_node_mix_witness :
    rootC10.children = [mkLeaf 0 2 "x"] ∧
      utf8Decode (Node.text [65, 66] rootC10) = some [65, 66] ∧
      decodeLen [65, 66] (mkLeaf 0 2 "x") = some 2 ∧ 2 < MIN_CHUNK_SIZE ∧
      get_chunks [65, 66] rootC10 "f" =
        [⟨[65, 66], 0, "mix", (0, 0), (0, 2), "f"⟩] :=
  ⟨rfl, by decide, by decide, by decide,
    C10_single_small_node_mix [65, 66] [65, 66] "f" rootC10 (mkLeaf 0 2 "x") 2
      rfl (by decide) (by decide) (by decide)⟩

theorem utf8Decode_text_replicate (N v : Nat) (n : Node) (hv : v < 128) :
    utf8Decode (Node.text (List.replicate N v) n) =
      some (List.replicate (min n.end_byte N - n.start_byte) v) := by
  rw [text_replicate]
  exact utf8Decode_replicate _ v hv

theorem decodeLen_mkLeaf_replicate (N v s e : Nat) (t : String) (hv : v < 128) (he : e ≤ N) :
    decodeLen (List.replicate N v) (mkLeaf s e t) = some (e - s) := by
  rw [decodeLen_replicate N v hv]
  show some (min e N - s) = some (e - s)
  rw [Nat.min_eq_left he]

/-- C1 (amended): a root whose three children have character lengths 300, 300
and 3000 yields exactly one chunk — when the third child is reached, the
accumulator holds 600 < `MIN_CHUNK_SIZE`, so the inner pull loop absorbs the
oversized child into the same "mix" chunk instead of splitting it. -/
theorem C1_amended_single_mix_chunk (src sc : List Nat) (f : String) (root n1 n2 n3 : Node)
    (hch : root.children = [n1, n2, n3]) (hroot : utf8Decode (Node.text src root) = some sc)
    (h1 : decodeLen src n1 = some 300) (h2 : decodeLen src n2 = some 300)
    (h3 : decodeLen src n3 = some 3000) :
    get_chunks src root f =
      [⟨(sc.take n3.end_byte).drop n1.start_byte, 0, "mix", n1.start_point, n3.end_point, f⟩] := by
  unfold get_chunks
  rw [hroot, hch]
  show process_nodes src sc f [] 0 [n1, n2, n3] [] = _
  exact process_triple_merge src sc f n1 n2 n3 300 300 3000 h1 (by decide) h2 (by decide) h3

/-- Witness for the amended C1 at a concrete 3600-byte ASCII file. -/
theorem C1_amended_single_mix_chunk_witness :
    rootC1.children = [mkLeaf 0 300 "t1", mkLeaf 300 600 "t2",
        Node.mk 600 3600 (0, 600) (0, 3600) "t3" [mkLeaf 600 2100 "c1", mkLeaf 2100 3600 "c2"]] ∧
      utf8Decode (Node.text src1 rootC1) = some (List.replicate 3600 65) ∧
      decodeLen src1 (mkLeaf 0 300 "t1") = some 300 ∧
      decodeLen src1 (mkLeaf 300 600 "t2") = some 300 ∧
      decodeLen src1 (Node.mk 600 3600 (0, 600) (0, 3600) "t3"
        [mkLeaf 600 2100 "c1", mkLeaf 2100 3600 "c2"]) = some 3000 ∧
      get_chunks src1 rootC1 "f" =
        [⟨((List.replicate 3600 65).take 3600).drop 0, 0, "mix", (0, 0), (0, 3600), "f"⟩] :=
  ⟨rfl,
    utf8Decode_text_replicate 3600 65 rootC1 (by norm_num),
    decodeLen_mkLeaf_replicate 3600 65 0 300 "t1" (by norm_num) (by norm_num),
    decodeLen_mkLeaf_replicate 3600 65 300 600 "t2" (by norm_num) (by norm_num),
    decodeLen_replicate 3600 65 (by norm_num) _,
    C1_amended_single_mix_chunk src1 (List.replicate 3600 65) "f" rootC1
      (mkLeaf 0 300 "t1") (mkLeaf 300 600 "t2")
      (Node.mk 600 3600 (0, 600) (0, 3600) "t3" [mkLeaf 600 2100 "c1", mkLeaf 2100 3600 "c2"])
      rfl (utf8Decode_text_replicate 3600 65 rootC1 (by norm_num))
      (decodeLen_mkLeaf_replicate 3600 65 0 300 "t1" (by norm_num) (by norm_num))
      (decodeLen_mkLeaf_replicate 3600 65 300 600 "t2" (by norm_num) (by norm_num))
      (decodeLen_replicate 3600 65 (by norm_num) _)⟩

/-- C1 (counterexample): on the spec's own end-to-end example the builder
returns one chunk, not three. -/
theorem C1_counterexample_one_chunk_not_three :
    get_chunks src1 rootC1 "f" =
      [⟨((List.replicate 3600 65).take 3600).drop 0, 0, "mix", (0, 0), (0, 3600), "f"⟩] ∧
      (get_chunks src1 rootC1 "f").length ≠ 3 := by
  have h : get_chunks src1 rootC1 "f" =
      [⟨((List.replicate 3600 65).take 3600).drop 0, 0, "mix", (0, 0), (0, 3600), "f"⟩] := by
    unfold get_chunks
    rw [show src1 = List.replicate 3600 65 from rfl,
      utf8Decode_text_replicate 3600 65 rootC1 (by norm_num)]
    show process_nodes src1 (List.replicate 3600 65) "f" [] 0
      [mkLeaf 0 300 "t1", mkLeaf 300 600 "t2",
        Node.mk 600 3600 (0, 600) (0, 3600) "t3" [mkLeaf 600 2100 "c1", mkLeaf 2100 3600 "c2"]] [] = _
    exact process_triple_merge src1 (List.replicate 3600 65) "f" _ _ _ 300 300 3000
      (decodeLen_mkLeaf_replicate 3600 65 0 300 "t1" (by norm_num) (by norm_num)) (by decide)
      (decodeLen_mkLeaf_replicate 3600 65 300 600 "t2" (by norm_num) (by norm_num)) (by decide)
      (decodeLen_replicate 3600 65 (by norm_num) _)
  exact ⟨h, by rw [h]; decide⟩

/-- C3 (amended): an oversized node with children that is reached while the
merge accumulator is empty — for instance at the head of its sibling list —
never becomes a chunk itself: its children are chunked recursively in its
place, and processing continues with the following siblings. -/
theorem C3_amended_split_when_accumulator_empty (src sc : List Nat) (f : String)
    (big : Node) (rest : List Node) (chunks : List Chunk) (s : Nat)
    (hs : decodeLen src big = some s) (hbig : MAX_CHUNK_SIZE < s)
    (hch : 0 < big.children.length) :
    process_nodes src sc f [] 0 (big :: rest) chunks =
      process_nodes src sc f [] 0 rest (process_nodes src sc f [] 0 big.children chunks) := by
  have hmin : MIN_CHUNK_SIZE = 1024 := rfl
  have hmax : MAX_CHUNK_SIZE = 2048 := rfl
  exact process_nodes_split src sc f [] 0 big rest chunks s hs (by omega) hbig hch

/-- Witness for the amended C3 at a concrete 2049-character node with two
children, first in its sibling list. -/
theorem C3_amended_split_when_accumulator_empty_witness :
    decodeLen srcW bigW3 = some 2049 ∧ MAX_CHUNK_SIZE < 2049 ∧ 0 < bigW3.children.length ∧
      process_nodes srcW (List.replicate 2049 98) "f" [] 0 [bigW3] [] =
        process_nodes srcW (List.replicate 2049 98) "f" [] 0 []
          (process_nodes srcW (List.replicate 2049 98) "f" [] 0 bigW3.children []) :=
  ⟨decodeLen_replicate 2049 98 (by norm_num) _, by decide, by decide,
    C3_amended_split_when_accumulator_empty srcW (List.replicate 2049 98) "f" bigW3 [] [] 2049
      (decodeLen_replicate 2049 98 (by norm_num) _) (by decide) (by decide)⟩

/-- C3 (counterexample): a 2049-character node with two children, preceded by
a 1-character sibling, is absorbed whole into a "mix" chunk — its children
are never chunked, so the node is not replaced by the chunking of its
children. -/
theorem C3_counterexample_absorbed_into_mix :
    get_chunks srcC3 rootC3 "f" =
      [⟨((List.replicate 2050 98).take 2050).drop 0, 0, "mix", (0, 0), (0, 2050), "f"⟩] ∧
      ∀ c ∈ get_chunks srcC3 rootC3 "f", c.type ≠ "c1" ∧ c.type ≠ "c2" := by
  have h : get_chunks srcC3 rootC3 "f" =
      [⟨((List.replicate 2050 98).take 2050).drop 0, 0, "mix", (0, 0), (0, 2050), "f"⟩] := by
    unfold get_chunks
    rw [show srcC3 = List.replicate 2050 98 from rfl,
      utf8Decode_text_replicate 2050 98 rootC3 (by norm_num)]
    show process_nodes srcC3 (List.replicate 2050 98) "f" [] 0
      [mkLeaf 0 1 "s", Node.mk 1 2050 (0, 1) (0, 2050) "big"
        [mkLeaf 1 1025 "c1", mkLeaf 1025 2050 "c2"]] [] = _
    exact process_pair_merge srcC3 (List.replicate 2050 98) "f" _ _ 1 2049
      (decodeLen_mkLeaf_replicate 2050 98 0 1 "s" (by norm_num) (by norm_num)) (by decide)
      (decodeLen_replicate 2050 98 (by norm_num) _)
  refine ⟨h, ?_⟩
  rw [h]
  intro c hc
  rw [List.mem_singleton] at hc
  rw [hc]
  exact ⟨by decide, by decide⟩

/-- C8 (amended): an oversized childless node that is reached while the merge
accumulator is empty — for instance at the head of its sibling list — is
emitted as one standalone chunk bearing its own type tag. -/
theorem C8_amended_standalone_when_accumulator_empty (src sc : List Nat) (f : String)
    (big : Node) (rest : List Node) (chunks : List Chunk) (s : Nat)
    (hs : decodeLen src big = some s) (hbig : MAX_CHUNK_SIZE < s) (hch : big.children = []) :
    process_nodes src sc f [] 0 (big :: rest) chunks =
      process_nodes src sc f [] 0 rest
        (add_chunk sc f big.start_byte big.end_byte big.start_point big.end_point
          big.type chunks) := by
  have hmin : MIN_CHUNK_SIZE = 1024 := rfl
  have hmax : MAX_CHUNK_SIZE = 2048 := rfl
  exact process_nodes_standalone src sc f [] 0 big rest chunks s hs (by omega)
    (by simp [hch])

/-- Witness for the amended C8 at a concrete 2049-character leaf, first in
its sibling list. -/
theorem C8_amended_standalone_when_accumulator_empty_witness :
    decodeLen srcW bigW8 = some 2049 ∧ MAX_CHUNK_SIZE < 2049 ∧ bigW8.children = [] ∧
      process_nodes srcW (List.replicate 2049 98) "f" [] 0 [bigW8] [] =
        process_nodes srcW (List.replicate 2049 98) "f" [] 0 []
          (add_chunk (List.replicate 2049 98) "f" bigW8.start_byte bigW8.end_byte
            bigW8.start_point bigW8.end_point bigW8.type []) :=
  ⟨decodeLen_replicate 2049 98 (by norm_num) _, by decide, rfl,
    C8_amended_standalone_when_accumulator_empty srcW (List.replicate 2049 98) "f" bigW8 [] []
      2049 (decodeLen_replicate 2049 98 (by norm_num) _) (by decide) rfl⟩

/-- C8 (counterexample): a 2049-character childless node preceded by a
1-character sibling is absorbed into a "mix" chunk rather than emitted
standalone under its own type tag. -/
theorem C8_counterexample_absorbed_into_mix :
    get_chunks srcC3 rootC8 "f" =
      [⟨((List.replicate 2050 98).take 2050).drop 0, 0, "mix", (0, 0), (0, 2050), "f"⟩] ∧
      ∀ c ∈ get_chunks srcC3 rootC8 "f", c.type ≠ "big" := by
  have h : get_chunks srcC3 rootC8 "f" =
      [⟨((List.replicate 2050 98).take 2050).drop 0, 0, "mix", (0, 0), (0, 2050), "f"⟩] := by
    unfold get_chunks
    rw [show srcC3 = List.replicate 2050 98 from rfl,
      utf8Decode_text_replicate 2050 98 rootC8 (by norm_num)]
    show process_nodes srcC3 (List.replicate 2050 98) "f" [] 0
      [mkLeaf 0 1 "s", mkLeaf 1 2050 "big"] [] = _
    exact process_pair_merge srcC3 (List.replicate 2050 98) "f" _ _ 1 2049
      (decodeLen_mkLeaf_replicate 2050 98 0 1 "s" (by norm_num) (by norm_num)) (by decide)
      (decodeLen_mkLeaf_replicate 2050 98 1 2050 "big" (by norm_num) (by norm_num))
  refine ⟨h, ?_⟩
  rw [h]
  intro c hc
  rw [List.mem_singleton] at hc
  rw [hc]
  decide

/-- C2 (code bug): with a multi-byte character before the siblings' spans,
slicing the decoded string with byte offsets misaligns the chunk contents:
the emitted "mix" chunk's content is `bcdefg` while the two siblings' decoded
texts concatenate to `abcdef`. -/
theorem C2_byte_offset_slicing_mismatch :
    utf8Decode (Node.text srcC2 (mkLeaf 2 6 "a")) = some [97, 98, 99, 100] ∧
      utf8Decode (Node.text srcC2 (mkLeaf 6 8 "b")) = some [101, 102] ∧
      ((get_chunks srcC2 rootC2 "f").map (fun c => c.content)).flatten =
        [98, 99, 100, 101, 102, 103] ∧
      ((get_chunks srcC2 rootC2 "f").map (fun c => c.content)).flatten ≠
        [97, 98, 99, 100] ++ [101, 102] := by
  have h0 : get_chunks srcC2 rootC2 "f"
      = process_nodes srcC2 [233, 97, 98, 99, 100, 101, 102, 103, 104] "f" [] 0
          [mkLeaf 2 6 "a", mkLeaf 6 8 "b"] [] := rfl
  have h : get_chunks srcC2 rootC2 "f" =
      [⟨[98, 99, 100, 101, 102, 103], 0, "mix", (0, 2), (0, 8), "f"⟩] := by
    rw [h0]
    rw [process_nodes_merge srcC2 [233, 97, 98, 99, 100, 101, 102, 103, 104] "f" [] 0
      (mkLeaf 2 6 "a") [mkLeaf 6 8 "b"] [] 4 rfl (by decide)]
    rw [show pullLoop srcC2 ([] ++ [mkLeaf 2 6 "a"]) (0 + 4) [mkLeaf 6 8 "b"]
        = ([mkLeaf 2 6 "a", mkLeaf 6 8 "b"], 6, []) from rfl]
    rw [process_nodes_nil]
    rfl
  refine ⟨by decide, by decide, ?_, ?_⟩
  · rw [h]
    rfl
  · rw [h]
    decide

/-- C5 (counterexample): an undecodable node between two small decodable
siblings is skipped by the accumulator, but the emitted "mix" chunk spans
from the first sibling's start to the last sibling's end, so the undecodable
node's byte range lies inside that chunk's span. -/
theorem C5_counterexample_span_contains_undecodable :
    get_chunks srcC5 rootC5 "f" = [⟨[97, 233, 98], 0, "mix", (0, 0), (0, 4), "f"⟩] ∧
      decodeLen srcC5 (mkLeaf 1 2 "bad") = none ∧
      (mkLeaf 0 1 "a").start_byte ≤ (mkLeaf 1 2 "bad").start_byte ∧
      (mkLeaf 1 2 "bad").end_byte ≤ (mkLeaf 3 4 "c").end_byte := by
  have h0 : get_chunks srcC5 rootC5 "f"
      = process_nodes srcC5 [97, 233, 98] "f" [] 0
          [mkLeaf 0 1 "a", mkLeaf 1 2 "bad", mkLeaf 3 4 "c"] [] := rfl
  have h : get_chunks srcC5 rootC5 "f" = [⟨[97, 233, 98], 0, "mix", (0, 0), (0, 4), "f"⟩] := by
    rw [h0]
    rw [process_nodes_merge srcC5 [97, 233, 98] "f" [] 0 (mkLeaf 0 1 "a")
      [mkLeaf 1 2 "bad", mkLeaf 3 4 "c"] [] 1 rfl (by decide)]
    rw [show pullLoop srcC5 ([] ++ [mkLeaf 0 1 "a"]) (0 + 1) [mkLeaf 1 2 "bad", mkLeaf 3 4 "c"]
        = ([mkLeaf 0 1 "a", mkLeaf 3 4 "c"], 2, []) from rfl]
    rw [process_nodes_nil]
    rfl
  exact ⟨h, by decide, by decide, by decide⟩

/-! Chunk-id bookkeeping: `add_chunk` always assigns `id = len(chunks)`. -/

theorem Node.weight_pos (n : Node) : 1 ≤ n.weight := by
  cases n
  exact Nat.le_add_right 1 _

theorem weightList_cons (n : Node) (ns : List Node) :
    weightList (n :: ns) = n.weight + weightList ns := rfl

theorem weightList_eq_zero (ns : List Node) (h : weightList ns = 0) : ns = [] := by
  cases ns with
  | nil => rfl
  | cons n ns =>
    have h1 := Node.weight_pos n
    have h2 : weightList (n :: ns) = n.weight + weightList ns := rfl
    omega

theorem Node.weight_eq (n : Node) : n.weight = 1 + weightList n.children := by
  cases n
  rfl

theorem add_chunk_ids (sc : List Nat) (f : String) (a b : Nat) (p q : Nat × Nat) (t : String)
    (chunks : List Chunk) (h : chunks.map (·.id) = List.range chunks.length) :
    (add_chunk sc f a b p q t chunks).map (·.id) =
      List.range (add_chunk sc f a b p q t chunks).length := by
  unfold add_chunk
  simp [List.range_succ, h]

theorem emitMix_ids (sc : List Nat) (f : String) (acc : List Node) (chunks : List Chunk)
    (h : chunks.map (·.id) = List.range chunks.length) :
    (emitMix sc f acc chunks).map (·.id) = List.range (emitMix sc f acc chunks).length := by
  unfold emitMix
  cases hh : acc.head? with
  | none => exact h
  | some a =>
    cases hl : acc.getLast? with
    | none => exact h
    | some b =>
      exact add_chunk_ids sc f a.start_byte b.end_byte a.start_point b.end_point "mix" chunks h

theorem process_nodes_ids (src sc : List Nat) (f : String) :
    ∀ N ns, weightList ns ≤ N → ∀ cur sz chunks,
      chunks.map (·.id) = List.range chunks.length →
      (process_nodes src sc f cur sz ns chunks).map (·.id) =
        List.range (process_nodes src sc f cur sz ns chunks).length := by
  intro N
  induction N with
  | zero =>
    intro ns hns cur sz chunks h
    rw [weightList_eq_zero ns (Nat.le_zero.mp hns), process_nodes_nil]
    exact h
  | succ N ih =>
    intro ns hns cur sz chunks h
    match ns with
    | [] =>
      rw [process_nodes_nil]
      exact h
    | node :: rest =>
      rw [weightList_cons] at hns
      have hwpos := Node.weight_pos node
      cases hdl : decodeLen src node with
      | none =>
        rw [process_nodes_skip src sc f cur sz node rest chunks hdl]
        exact ih rest (by omega) cur sz chunks h
      | some s =>
        by_cases hlt : sz + s < MIN_CHUNK_SIZE
        · rw [process_nodes_merge src sc f cur sz node rest chunks s hdl hlt]
          have hpw := pullLoop_weightList src rest (cur ++ [node]) (sz + s)
          exact ih _ (by omega) [] 0 _ (emitMix_ids sc f _ chunks h)
        · by_cases hbig : MAX_CHUNK_SIZE < s ∧ 0 < node.children.length
          · rw [process_nodes_split src sc f cur sz node rest chunks s hdl hlt hbig.1 hbig.2]
            have hwe := Node.weight_eq node
            exact ih rest (by omega) cur sz _
              (ih node.children (by omega) [] 0 chunks h)
          · rw [process_nodes_standalone src sc f cur sz node rest chunks s hdl hlt hbig]
            exact ih rest (by omega) cur sz _
              (add_chunk_ids sc f node.start_byte node.end_byte node.start_point
                node.end_point node.type chunks h)

/-- C6 (confirmed): across one `get_chunks` call the chunk ids, in emission
order, are exactly `0, 1, 2, …` — the map of ids equals `List.range` of the
output length, hence strictly increasing, gap-free and unique, regardless of
recursion depth. -/
theorem C6_ids_are_range (src : List Nat) (root : Node) (f : String) :
    (get_chunks src root f).map (·.id) = List.range (get_chunks src root f).length := by
  unfold get_chunks
  cases h : utf8Decode (Node.text src root) with
  | none => rfl
  | some sc =>
    exact process_nodes_ids src sc f (weightList root.children) root.children
      (Nat.le_refl _) [] 0 [] rfl

/-! Fuel-indexed variant: equations and sufficiency of tree-size fuel. -/

theorem process_nodesF_zero (src sc : List Nat) (f : String) (cur : List Node) (sz : Nat)
    (ns : List Node) (chunks : List Chunk) :
    process_nodesF src sc f 0 cur sz ns chunks = none := rfl

theorem process_nodesF_nil (src sc : List Nat) (f : String) (fuel : Nat) (cur : List Node)
    (sz : Nat) (chunks : List Chunk) :
    process_nodesF src sc f (fuel + 1) cur sz [] chunks = some chunks := rfl

theorem process_nodesF_skip (src sc : List Nat) (f : String) (fuel : Nat) (cur : List Node)
    (sz : Nat) (node : Node) (rest : List Node) (chunks : List Chunk)
    (h : decodeLen src node = none) :
    process_nodesF src sc f (fuel + 1) cur sz (node :: rest) chunks =
      process_nodesF src sc f fuel cur sz rest chunks := by
  rw [process_nodesF, h]

theorem process_nodesF_merge (src sc : List Nat) (f : String) (fuel : Nat) (cur : List Node)
    (sz : Nat) (node : Node) (rest : List Node) (chunks : List Chunk) (s : Nat)
    (h : decodeLen src node = some s) (hlt : sz + s < MIN_CHUNK_SIZE) :
    process_nodesF src sc f (fuel + 1) cur sz (node :: rest) chunks =
      process_nodesF src sc f fuel [] 0 (pullLoop src (cur ++ [node]) (sz + s) rest).2.2
        (emitMix sc f (pullLoop src (cur ++ [node]) (sz + s) rest).1 chunks) := by
  rw [process_nodesF, h]
  simp only [hlt, if_pos]

theorem process_nodesF_split (src sc : List Nat) (f : String) (fuel : Nat) (cur : List Node)
    (sz : Nat) (node : Node) (rest : List Node) (chunks : List Chunk) (s : Nat)
    (h : decodeLen src node = some s) (hge : ¬ sz + s < MIN_CHUNK_SIZE)
    (hbig : MAX_CHUNK_SIZE < s) (hch : 0 < node.children.length) :
    process_nodesF src sc f (fuel + 1) cur sz (node :: rest) chunks =
      match process_nodesF src sc f fuel [] 0 node.children chunks with
      | none => none
      | some chunks2 => process_nodesF src sc f fuel cur sz rest chunks2 := by
  rw [process_nodesF, h]
  simp only [hge, if_neg, not_false_iff]
  rw [if_pos ⟨hbig, hch⟩]

theorem process_nodesF_standalone (src sc : List Nat) (f : String) (fuel : Nat)
    (cur : List Node) (sz : Nat) (node : Node) (rest : List Node) (chunks : List Chunk)
    (s : Nat) (h : decodeLen src node = some s) (hge : ¬ sz + s < MIN_CHUNK_SIZE)
    (hns : ¬ (MAX_CHUNK_SIZE < s ∧ 0 < node.children.length)) :
    process_nodesF src sc f (fuel + 1) cur sz (node :: rest) chunks =
      process_nodesF src sc f fuel cur sz rest
        (add_chunk sc f node.start_byte node.end_byte node.start_point node.end_point
          node.type chunks) := by
  rw [process_nodesF, h]
  simp only [hge, if_neg, not_false_iff]
  rw [if_neg hns]

theorem process_nodesF_eq (src sc : List Nat) (f : String) :
    ∀ fuel ns, weightList ns < fuel → ∀ cur sz chunks,
      process_nodesF src sc f fuel cur sz ns chunks =
        some (process_nodes src sc f cur sz ns chunks) := by
  intro fuel
  induction fuel with
  | zero =>
    intro ns h cur sz chunks
    exact absurd h (Nat.not_lt_zero _)
  | succ fuel ih =>
    intro ns h cur sz chunks
    match ns with
    | [] =>
      rw [process_nodes_nil]
      rfl
    | node :: rest =>
      rw [weightList_cons] at h
      have hwpos := Node.weight_pos node
      cases hdl : decodeLen src node with
      | none =>
        rw [process_nodesF_skip src sc f fuel cur sz node rest chunks hdl,
          process_nodes_skip src sc f cur sz node rest chunks hdl]
        exact ih rest (by omega) cur sz chunks
      | some s =>
        by_cases hlt : sz + s < MIN_CHUNK_SIZE
        · rw [process_nodesF_merge src sc f fuel cur sz node rest chunks s hdl hlt,
            process_nodes_merge src sc f cur sz node rest chunks s hdl hlt]
          have hpw := pullLoop_weightList src rest (cur ++ [node]) (sz + s)
          exact ih _ (by omega) [] 0 _
        · by_cases hbig : MAX_CHUNK_SIZE < s ∧ 0 < node.children.length
          · rw [process_nodesF_split src sc f fuel cur sz node rest chunks s hdl hlt
              hbig.1 hbig.2,
              process_nodes_split src sc f cur sz node rest chunks s hdl hlt hbig.1 hbig.2]
            have hwe := Node.weight_eq node
            rw [ih node.children (by omega) [] 0 chunks]
            exact ih rest (by omega) cur sz _
          · rw [process_nodesF_standalone src sc f fuel cur sz node rest chunks s hdl hlt
              hbig,
              process_nodes_standalone src sc f cur sz node rest chunks s hdl hlt hbig]
            exact ih rest (by omega) cur sz _

/-- C9 (confirmed): on every input the recursion terminates normally — the
fuel-indexed embedding, identical branch for branch but returning `none` on
fuel exhaustion, returns `some` of the total function's result with fuel
bounded by the tree size; a root decode failure degrades to `some []` rather
than an error. -/
theorem C9_terminates_normally (src : List Nat) (root : Node) (f : String) :
    get_chunksF root.weight src root f = some (get_chunks src root f) := by
  unfold get_chunksF get_chunks
  cases h : utf8Decode (Node.text src root) with
  | none => rfl
  | some sc =>
    have hwe := Node.weight_eq root
    exact process_nodesF_eq src sc f root.weight root.children (by omega) [] 0 []

/-! Skipping of an undecodable node is exact: processing a sibling list with
the node present equals processing the list with it removed. -/

theorem process_nodes_skip_anywhere (src sc : List Nat) (f : String) (b : Node)
    (hb : decodeLen src b = none) :
    ∀ N pre post, pre.length ≤ N → ∀ cur sz chunks,
      process_nodes src sc f cur sz (pre ++ b :: post) chunks =
        process_nodes src sc f cur sz (pre ++ post) chunks := by
  intro N
  induction N with
  | zero =>
    intro pre post hlen cur sz chunks
    rw [List.length_eq_zero.mp (Nat.le_zero.mp hlen)]
    rw [List.nil_append, List.nil_append,
      process_nodes_skip src sc f cur sz b post chunks hb]
  | succ N ih =>
    intro pre post hlen cur sz chunks
    match pre with
    | [] =>
      rw [List.nil_append, List.nil_append,
        process_nodes_skip src sc f cur sz b post chunks hb]
    | n :: pre2 =>
      have hlen2 : pre2.length ≤ N := by
        simp only [List.length_cons] at hlen
        omega
      rw [List.cons_append, List.cons_append]
      cases hdl : decodeLen src n with
      | none =>
        rw [process_nodes_skip src sc f cur sz n (pre2 ++ b :: post) chunks hdl,
          process_nodes_skip src sc f cur sz n (pre2 ++ post) chunks hdl]
        exact ih pre2 post hlen2 cur sz chunks
      | some s =>
        by_cases hlt : sz + s < MIN_CHUNK_SIZE
        · rw [process_nodes_merge src sc f cur sz n (pre2 ++ b :: post) chunks s hdl hlt,
            process_nodes_merge src sc f cur sz n (pre2 ++ post) chunks s hdl hlt]
          rcases hres : pullLoop src (cur ++ [n]) (sz + s) pre2 with ⟨a, σ, r⟩
          cases r with
          | nil =>
            rw [pullLoop_append_exhausted src pre2 (cur ++ [n]) (sz + s) (b :: post) a σ hres,
              pullLoop_append_exhausted src pre2 (cur ++ [n]) (sz + s) post a σ hres]
            by_cases hσ : σ < MIN_CHUNK_SIZE
            · rw [pullLoop_skip src a σ b post hσ hb]
            · rw [pullLoop_stop src a σ b post hσ]
              cases post with
              | nil =>
                rw [pullLoop_nil]
                show process_nodes src sc f [] 0 [b] (emitMix sc f a chunks) =
                  process_nodes src sc f [] 0 [] (emitMix sc f a chunks)
                rw [process_nodes_skip src sc f [] 0 b [] _ hb]
              | cons p ps =>
                rw [pullLoop_stop src a σ p ps hσ]
                show process_nodes src sc f [] 0 (b :: p :: ps) (emitMix sc f a chunks) =
                  process_nodes src sc f [] 0 (p :: ps) (emitMix sc f a chunks)
                rw [process_nodes_skip src sc f [] 0 b (p :: ps) _ hb]
          | cons r0 rs =>
            rw [pullLoop_append_stopped src pre2 (cur ++ [n]) (sz + s) (b :: post) a σ
              (r0 :: rs) hres (by simp),
              pullLoop_append_stopped src pre2 (cur ++ [n]) (sz + s) post a σ
              (r0 :: rs) hres (by simp)]
            show process_nodes src sc f [] 0 ((r0 :: rs) ++ b :: post) (emitMix sc f a chunks) =
              process_nodes src sc f [] 0 ((r0 :: rs) ++ post) (emitMix sc f a chunks)
            obtain ⟨t, ht⟩ := pullLoop_rest_suffix src pre2 (cur ++ [n]) (sz + s)
            rw [hres] at ht
            simp only at ht
            have hrlen : (r0 :: rs).length ≤ N := by
              have := congrArg List.length ht
              simp only [List.length_append] at this
              omega
            exact ih (r0 :: rs) post hrlen [] 0 _
        · by_cases hbig : MAX_CHUNK_SIZE < s ∧ 0 < n.children.length
          · rw [process_nodes_split src sc f cur sz n (pre2 ++ b :: post) chunks s hdl hlt
              hbig.1 hbig.2,
              process_nodes_split src sc f cur sz n (pre2 ++ post) chunks s hdl hlt
              hbig.1 hbig.2]
            exact ih pre2 post hlen2 cur sz _
          · rw [process_nodes_standalone src sc f cur sz n (pre2 ++ b :: post) chunks s hdl
              hlt hbig,
              process_nodes_standalone src sc f cur sz n (pre2 ++ post) chunks s hdl
              hlt hbig]
            exact ih pre2 post hlen2 cur sz _

/-- C5 (amended): a node whose text fails to decode is skipped exactly — at
any position in its sibling list, and for any loop state, the output equals
the output on the sibling list with the node removed: it produces no chunk of
its own, contributes nothing to the accumulator, and is never recursed into.
(Its byte span may still fall inside a surrounding mix chunk's span.) -/
theorem C5_amended_undecodable_node_removed (src sc : List Nat) (f : String) (b : Node)
    (pre post cur : List Node) (sz : Nat) (chunks : List Chunk)
    (hb : decodeLen src b = none) :
    process_nodes src sc f cur sz (pre ++ b :: post) chunks =
      process_nodes src sc f cur sz (pre ++ post) chunks :=
  process_nodes_skip_anywhere src sc f b hb pre.length pre post (Nat.le_refl _) cur sz chunks

/-- Witness for the amended C5 at the concrete 4-byte file of
`C5_counterexample_span_contains_undecodable`. -/
theorem C5_amended_undecodable_node_removed_witness :
    decodeLen srcC5 (mkLeaf 1 2 "bad") = none ∧
      process_nodes srcC5 [97, 233, 98] "f" [] 0
          ([mkLeaf 0 1 "a"] ++ mkLeaf 1 2 "bad" :: [mkLeaf 3 4 "c"]) [] =
        process_nodes srcC5 [97, 233, 98] "f" [] 0 ([mkLeaf 0 1 "a"] ++ [mkLeaf 3 4 "c"]) [] :=
  ⟨by decide,
    C5_amended_undecodable_node_removed srcC5 [97, 233, 98] "f" (mkLeaf 1 2 "bad")
      [mkLeaf 0 1 "a"] [mkLeaf 3 4 "c"] [] 0 [] (by decide)⟩

/-! Greedy merge grouping: when every sibling is below `MIN_CHUNK_SIZE`, the
merge accumulator partitions the sibling list into consecutive groups, each
flushed as one "mix" chunk as soon as its running size reaches the
threshold. -/

theorem groupSize_nil (src : List Nat) : groupSize src [] = 0 := rfl

theorem groupSize_cons (src : List Nat) (x : Node) (l : List Node) :
    groupSize src (x :: l) = (decodeLen src x).getD 0 + groupSize src l := by
  simp [groupSize]

theorem pullLoop_decode_all (src : List Nat) :
    ∀ r : List Node, (∀ n ∈ r, (decodeLen src n).isSome) →
    ∀ (acc : List Node) (sz : Nat),
      ∃ taken rest2,
        pullLoop src acc sz r = (acc ++ taken, sz + groupSize src taken, rest2) ∧
        r = taken ++ rest2 ∧
        (rest2 ≠ [] → MIN_CHUNK_SIZE ≤ sz + groupSize src taken) ∧
        (∀ k, k < taken.length → sz + groupSize src (taken.take k) < MIN_CHUNK_SIZE) := by
  intro r
  induction r with
  | nil =>
    intro _ acc sz
    refine ⟨[], [], ?_, rfl, ?_, ?_⟩
    · rw [pullLoop_nil]
      simp [groupSize]
    · intro h
      exact absurd rfl h
    · intro k hk
      simp at hk
  | cons x xs ih =>
    intro hdec acc sz
    by_cases hs : sz < MIN_CHUNK_SIZE
    · obtain ⟨v, hv⟩ : ∃ v, decodeLen src x = some v :=
        Option.isSome_iff_exists.mp (hdec x (by simp))
      obtain ⟨taken, rest2, heq, hsplit, hstop, hpref⟩ :=
        ih (fun m hm => hdec m (by simp [hm])) (acc ++ [x]) (sz + v)
      refine ⟨x :: taken, rest2, ?_, ?_, ?_, ?_⟩
      · rw [pullLoop_cons src acc sz x xs v hs hv, heq, groupSize_cons, hv]
        simp [List.append_assoc, Nat.add_assoc]
      · rw [hsplit]
        rfl
      · intro h2
        have h3 := hstop h2
        rw [groupSize_cons, hv]
        simp only [Option.getD_some]
        omega
      · intro k hk
        cases k with
        | zero =>
          simpa [groupSize] using hs
        | succ j =>
          have hj : j < taken.length := by
            simp only [List.length_cons] at hk
            omega
          have h4 := hpref j hj
          rw [List.take_succ_cons, groupSize_cons, hv]
          simp only [Option.getD_some]
          omega
    · refine ⟨[], x :: xs, ?_, rfl, ?_, ?_⟩
      · rw [pullLoop_stop src acc sz x xs hs]
        simp [groupSize]
      · intro _
        omega
      · intro k hk
        simp at hk

theorem greedyGroups_nil (src : List Nat) : greedyGroups src [] = [] := by
  rw [greedyGroups]

theorem greedyGroups_skip (src : List Nat) (n : Node) (rest : List Node)
    (h : decodeLen src n = none) :
    greedyGroups src (n :: rest) = greedyGroups src rest := by
  rw [greedyGroups, h]

theorem greedyGroups_cons (src : List Nat) (n : Node) (rest : List Node) (s : Nat)
    (h : decodeLen src n = some s) :
    greedyGroups src (n :: rest) =
      (pullLoop src [n] s rest).1 :: greedyGroups src (pullLoop src [n] s rest).2.2 := by
  rw [greedyGroups, h]

theorem greedyGroups_facts (src : List Nat) :
    ∀ N ns, ns.length ≤ N →
      (∀ n ∈ ns, ∃ s, decodeLen src n = some s ∧ s < MIN_CHUNK_SIZE) →
      (greedyGroups src ns).flatten = ns ∧
      (∀ g ∈ greedyGroups src ns, 0 < g.length) ∧
      (∀ g ∈ (greedyGroups src ns).dropLast, MIN_CHUNK_SIZE ≤ groupSize src g) ∧
      (∀ g ∈ greedyGroups src ns, groupSize src g.dropLast < MIN_CHUNK_SIZE) := by
  intro N
  induction N with
  | zero =>
    intro ns hlen _
    rw [List.length_eq_zero.mp (Nat.le_zero.mp hlen), greedyGroups_nil]
    exact ⟨rfl, by simp, by simp, by simp⟩
  | succ N ih =>
    intro ns hlen hsmall
    match ns with
    | [] =>
      rw [greedyGroups_nil]
      exact ⟨rfl, by simp, by simp, by simp⟩
    | n :: rest =>
      obtain ⟨s, hs, hslt⟩ := hsmall n (by simp)
      rw [greedyGroups_cons src n rest s hs]
      have hdec : ∀ m ∈ rest, (decodeLen src m).isSome := by
        intro m hm
        obtain ⟨v, hv, _⟩ := hsmall m (by simp [hm])
        rw [hv]
        rfl
      obtain ⟨taken, rest2, heq, hsplit, hstop, hpref⟩ := pullLoop_decode_all src rest hdec [n] s
      have h1 : (pullLoop src [n] s rest).1 = [n] ++ taken := by rw [heq]
      have h2 : (pullLoop src [n] s rest).2.2 = rest2 := by rw [heq]
      rw [h1, h2]
      have hlen2 : rest2.length ≤ N := by
        have hc := congrArg List.length hsplit
        simp only [List.length_append] at hc
        simp only [List.length_cons] at hlen
        omega
      have hsmall2 : ∀ m ∈ rest2, ∃ v, decodeLen src m = some v ∧ v < MIN_CHUNK_SIZE := by
        intro m hm
        refine hsmall m ?_
        rw [List.mem_cons, hsplit]
        exact Or.inr (List.mem_append.mpr (Or.inr hm))
      obtain ⟨ihflat, ihne, ihmin, ihgreedy⟩ := ih rest2 hlen2 hsmall2
      have hgs0 : groupSize src ([n] ++ taken) = s + groupSize src taken := by
        rw [List.singleton_append, groupSize_cons, hs]
        simp
      refine ⟨?_, ?_, ?_, ?_⟩
      · rw [List.flatten_cons, ihflat, hsplit]
        simp
      · intro g hg
        rcases List.mem_cons.mp hg with h | h
        · rw [h]
          simp
        · exact ihne g h
      · intro g hg
        cases hgs : greedyGroups src rest2 with
        | nil =>
          rw [hgs] at hg
          simp at hg
        | cons g1 gs1 =>
          rw [hgs, List.dropLast_cons₂] at hg
          rcases List.mem_cons.mp hg with h | h
          · have hrest2 : rest2 ≠ [] := by
              intro hnil
              rw [hnil, greedyGroups_nil] at hgs
              exact absurd hgs (by simp)
            have h5 := hstop hrest2
            rw [h, hgs0]
            omega
          · refine ihmin g ?_
            rw [hgs]
            exact h
      · intro g hg
        rcases List.mem_cons.mp hg with h | h
        · by_cases htk : taken = []
          · rw [h, htk]
            simp [groupSize]
            decide
          · rw [h, List.dropLast_append_of_ne_nil [n] htk, List.singleton_append,
              groupSize_cons, hs]
            simp only [Option.getD_some]
            have hlp : taken.length - 1 < taken.length := by
              have := List.length_pos.mpr htk
              omega
            have hk := hpref (taken.length - 1) hlp
            rw [← List.dropLast_eq_take taken] at hk
            omega
        · exact ihgreedy g h

theorem emitMix_cons_eq (sc : List Nat) (f : String) (a : Node) (t : List Node)
    (chunks : List Chunk) :
    ∃ b : Node, emitMix sc f (a :: t) chunks =
      add_chunk sc f a.start_byte b.end_byte a.start_point b.end_point "mix" chunks := by
  cases hl : (a :: t).getLast? with
  | none =>
    rw [List.getLast?_eq_none_iff] at hl
    exact absurd hl (by simp)
  | some b =>
    refine ⟨b, ?_⟩
    unfold emitMix
    rw [List.head?_cons, hl]

theorem process_eq_greedyGroups (src sc : List Nat) (f : String) :
    ∀ N ns, ns.length ≤ N →
      (∀ n ∈ ns, ∃ s, decodeLen src n = some s ∧ s < MIN_CHUNK_SIZE) →
      ∀ chunks,
        (process_nodes src sc f [] 0 ns chunks).length =
          chunks.length + (greedyGroups src ns).length ∧
        ∀ c ∈ process_nodes src sc f [] 0 ns chunks, c ∈ chunks ∨ c.type = "mix" := by
  intro N
  induction N with
  | zero =>
    intro ns hlen _ chunks
    rw [List.length_eq_zero.mp (Nat.le_zero.mp hlen), process_nodes_nil, greedyGroups_nil]
    exact ⟨rfl, fun c hc => Or.inl hc⟩
  | succ N ih =>
    intro ns hlen hsmall chunks
    match ns with
    | [] =>
      rw [process_nodes_nil, greedyGroups_nil]
      exact ⟨rfl, fun c hc => Or.inl hc⟩
    | n :: rest =>
      obtain ⟨s, hs, hslt⟩ := hsmall n (by simp)
      rw [process_nodes_merge src sc f [] 0 n rest chunks s hs (by omega),
        greedyGroups_cons src n rest s hs]
      have hnorm : ([] : List Node) ++ [n] = [n] := rfl
      have hnorm2 : 0 + s = s := by omega
      rw [hnorm, hnorm2]
      have hdec : ∀ m ∈ rest, (decodeLen src m).isSome := by
        intro m hm
        obtain ⟨v, hv, _⟩ := hsmall m (by simp [hm])
        rw [hv]
        rfl
      obtain ⟨taken, rest2, heq, hsplit, hstop, hpref⟩ := pullLoop_decode_all src rest hdec [n] s
      have h1 : (pullLoop src [n] s rest).1 = [n] ++ taken := by rw [heq]
      have h2 : (pullLoop src [n] s rest).2.2 = rest2 := by rw [heq]
      rw [h1, h2, List.singleton_append]
      obtain ⟨bnode, hemit⟩ := emitMix_cons_eq sc f n taken chunks
      rw [hemit]
      have hlen2 : rest2.length ≤ N := by
        have hc := congrArg List.length hsplit
        simp only [List.length_append] at hc
        simp only [List.length_cons] at hlen
        omega
      have hsmall2 : ∀ m ∈ rest2, ∃ v, decodeLen src m = some v ∧ v < MIN_CHUNK_SIZE := by
        intro m hm
        refine hsmall m ?_
        rw [List.mem_cons, hsplit]
        exact Or.inr (List.mem_append.mpr (Or.inr hm))
      obtain ⟨ihlen, ihmem⟩ := ih rest2 hlen2 hsmall2
        (add_chunk sc f n.start_byte bnode.end_byte n.start_point bnode.end_point "mix" chunks)
      constructor
      · rw [ihlen]
        simp [add_chunk]
        omega
      · intro c hc
        rcases ihmem c hc with h | h
        · unfold add_chunk at h
          rcases List.mem_append.mp h with h3 | h3
          · exact Or.inl h3
          · right
            rw [List.mem_singleton] at h3
            rw [h3]
        · exact Or.inr h

/-- C4 (amended): for a sibling list whose nodes all decode and are each
below `MIN_CHUNK_SIZE`, `get_chunks` emits only "mix" chunks, one per greedy
accumulator group: the groups partition the sibling list exactly, every group
except possibly the final one has accumulated character size at least
`MIN_CHUNK_SIZE`, and every group flushes as soon as the threshold is reached
(its size without its last node is below `MIN_CHUNK_SIZE`).  The chunk count
equals the greedy group count — not, in general, the fewest count satisfying
the stated bound, since one all-covering chunk always satisfies it. -/
theorem C4_amended_greedy_mix_grouping (src sc : List Nat) (f : String) (root : Node)
    (ns : List Node) (hch : root.children = ns)
    (hroot : utf8Decode (Node.text src root) = some sc)
    (hsmall : ∀ n ∈ ns, ∃ s, decodeLen src n = some s ∧ s < MIN_CHUNK_SIZE) :
    (∀ c ∈ get_chunks src root f, c.type = "mix") ∧
      (get_chunks src root f).length = (greedyGroups src ns).length ∧
      okGrouping src (greedyGroups src ns) ns ∧
      ∀ g ∈ greedyGroups src ns, groupSize src g.dropLast < MIN_CHUNK_SIZE := by
  have hmain : get_chunks src root f = process_nodes src sc f [] 0 ns [] := by
    unfold get_chunks
    rw [hroot, hch]
  obtain ⟨hlen, hmem⟩ := process_eq_greedyGroups src sc f ns.length ns (Nat.le_refl _) hsmall []
  obtain ⟨hflat, hne, hmin, hgreedy⟩ :=
    greedyGroups_facts src ns.length ns (Nat.le_refl _) hsmall
  refine ⟨?_, ?_, ⟨hflat, hne, hmin⟩, hgreedy⟩
  · intro c hc
    rw [hmain] at hc
    rcases hmem c hc with h | h
    · exact absurd h (List.not_mem_nil c)
    · exact h
  · rw [hmain, hlen]
    simp

/-- C4 (counterexample): three siblings of 1023 characters each are emitted
as 2 chunks (the greedy accumulator flushes at 2046 ≥ MIN), yet the single
all-covering group is also a valid grouping in which every chunk except the
final one — vacuously — has size ≥ MIN, so 2 is not the fewest possible
number of chunks satisfying the claimed bound. -/
theorem C4_counterexample_not_fewest :
    (get_chunks srcC4 rootC4 "f").length = 2 ∧
      okGrouping srcC4 [[nC4a, nC4b, nC4c]] [nC4a, nC4b, nC4c] ∧
      rootC4.children = [nC4a, nC4b, nC4c] ∧
      ∀ n ∈ [nC4a, nC4b, nC4c], ∃ s, decodeLen srcC4 n = some s ∧ s < MIN_CHUNK_SIZE := by
  have h : get_chunks srcC4 rootC4 "f" =
      [⟨((List.replicate 3069 99).take 2046).drop 0, 0, "mix", (0, 0), (0, 2046), "f"⟩,
        ⟨((List.replicate 3069 99).take 3069).drop 2046, 1, "mix", (0, 2046), (0, 3069), "f"⟩] := by
    unfold get_chunks
    rw [show srcC4 = List.replicate 3069 99 from rfl,
      utf8Decode_text_replicate 3069 99 rootC4 (by norm_num)]
    show process_nodes srcC4 (List.replicate 3069 99) "f" [] 0 [nC4a, nC4b, nC4c] [] = _
    rw [process_nodes_merge srcC4 (List.replicate 3069 99) "f" [] 0 nC4a [nC4b, nC4c] [] 1023
      (decodeLen_mkLeaf_replicate 3069 99 0 1023 "a" (by norm_num) (by norm_num)) (by decide)]
    rw [pullLoop_cons srcC4 ([] ++ [nC4a]) (0 + 1023) nC4b [nC4c] 1023 (by decide)
      (decodeLen_mkLeaf_replicate 3069 99 1023 2046 "b" (by norm_num) (by norm_num))]
    rw [pullLoop_stop srcC4 ([] ++ [nC4a] ++ [nC4b]) (0 + 1023 + 1023) nC4c [] (by decide)]
    show process_nodes srcC4 (List.replicate 3069 99) "f" [] 0 [nC4c]
      (emitMix (List.replicate 3069 99) "f" ([] ++ [nC4a] ++ [nC4b]) []) = _
    rw [process_nodes_merge srcC4 (List.replicate 3069 99) "f" [] 0 nC4c [] _ 1023
      (decodeLen_mkLeaf_replicate 3069 99 2046 3069 "c" (by norm_num) (by norm_num)) (by decide)]
    rw [pullLoop_nil]
    show process_nodes srcC4 (List.replicate 3069 99) "f" [] 0 []
      (emitMix (List.replicate 3069 99) "f" ([] ++ [nC4c])
        (emitMix (List.replicate 3069 99) "f" ([] ++ [nC4a] ++ [nC4b]) [])) = _
    rw [process_nodes_nil]
    rfl
  refine ⟨by rw [h]; rfl, ⟨rfl, by decide, by simp⟩, rfl, ?_⟩
  intro n hn
  rcases List.mem_cons.mp hn with h1 | hn1
  · refine ⟨1023, ?_, by decide⟩
    rw [h1]
    exact decodeLen_mkLeaf_replicate 3069 99 0 1023 "a" (by norm_num) (by norm_num)
  rcases List.mem_cons.mp hn1 with h1 | hn2
  · refine ⟨1023, ?_, by decide⟩
    rw [h1]
    exact decodeLen_mkLeaf_replicate 3069 99 1023 2046 "b" (by norm_num) (by norm_num)
  rcases List.mem_cons.mp hn2 with h1 | hn3
  · refine ⟨1023, ?_, by decide⟩
    rw [h1]
    exact decodeLen_mkLeaf_replicate 3069 99 2046 3069 "c" (by norm_num) (by norm_num)
  · exact absurd hn3 (List.not_mem_nil n)

/-- Witness for the amended C4 at the concrete three-sibling 1023/1023/1023
file. -/
theorem C4_amended_greedy_mix_grouping_witness :
    rootC4.children = [nC4a, nC4b, nC4c] ∧
      utf8Decode (Node.text srcC4 rootC4) = some (List.replicate 3069 99) ∧
      (∀ n ∈ [nC4a, nC4b, nC4c], ∃ s, decodeLen srcC4 n = some s ∧ s < MIN_CHUNK_SIZE) ∧
      ((∀ c ∈ get_chunks srcC4 rootC4 "f", c.type = "mix") ∧
        (get_chunks srcC4 rootC4 "f").length =
          (greedyGroups srcC4 [nC4a, nC4b, nC4c]).length ∧
        okGrouping srcC4 (greedyGroups srcC4 [nC4a, nC4b, nC4c]) [nC4a, nC4b, nC4c] ∧
        ∀ g ∈ greedyGroups srcC4 [nC4a, nC4b, nC4c],
          groupSize srcC4 g.dropLast < MIN_CHUNK_SIZE) := by
  have hroot : utf8Decode (Node.text srcC4 rootC4) = some (List.replicate 3069 99) :=
    utf8Decode_text_replicate 3069 99 rootC4 (by norm_num)
  have hsmall : ∀ n ∈ [nC4a, nC4b, nC4c],
      ∃ s, decodeLen srcC4 n = some s ∧ s < MIN_CHUNK_SIZE := by
    intro n hn
    rcases List.mem_cons.mp hn with h1 | hn1
    · refine ⟨1023, ?_, by decide⟩
      rw [h1]
      exact decodeLen_mkLeaf_replicate 3069 99 0 1023 "a" (by norm_num) (by norm_num)
    rcases List.mem_cons.mp hn1 with h1 | hn2
    · refine ⟨1023, ?_, by decide⟩
      rw [h1]
      exact decodeLen_mkLeaf_replicate 3069 99 1023 2046 "b" (by norm_num) (by norm_num)
    rcases List.mem_cons.mp hn2 with h1 | hn3
    · refine ⟨1023, ?_, by decide⟩
      rw [h1]
      exact decodeLen_mkLeaf_replicate 3069 99 2046 3069 "c" (by norm_num) (by norm_num)
    · exact absurd hn3 (List.not_mem_nil n)
  exact ⟨rfl, hroot, hsmall,
    C4_amended_greedy_mix_grouping srcC4 (List.replicate 3069 99) "f" rootC4
      [nC4a, nC4b, nC4c] rfl hroot hsmall⟩
